import Mathlib

/-!
A verification development for the musig2 signing context/session state machine
(`btcec/schnorr/musig2/context.go`) and the musig2 key-aggregation routines
(`sortKeys`, `keyHashFingerprint`, `secondUniqueKeyIndex`,
`aggregationCoefficient`, `AggregateKeys`).

The elliptic-curve group and hash primitives are external collaborators of the
code under study; they are modelled as abstract parameters (an additive
commutative monoid for curve points, abstract tagged-hash functions), exactly
as the code consumes them.  Stateful session methods are modelled by explicit
state passing: each method returns its Go return values together with the
session value after the call.  A `nil`-pointer dereference (a Go panic) is
modelled as the `none` outcome of an `Option`-valued result.
-/

namespace Musig2

/-- The error values declared at the top of `context.go` (plus the psbt
`ErrInvalidKeyData` referenced by the specification for key aggregation). -/
inductive MusigError where
  | signerNotInKeySet
  | alreadyHaveAllNonces
  | alreadyHaveAllSigs
  | signingContextReuse
  | finalSigInvalid
  | combinedNonceUnavailable
  | invalidKeyData
deriving DecidableEq, Repr

/-- `PartialSignature`: a partial signature scalar `S` together with the
signer's nonce contribution `R` (only the fields the session logic touches). -/
structure PartialSignature (Rt St : Type) where
  R : Rt
  S : St
deriving DecidableEq, Repr

/-- The `Nonces` pair held by a session: secret nonce plus public nonce. -/
structure Nonces (SN PN : Type) where
  SecNonce : SN
  PubNonce : PN
deriving DecidableEq, Repr

/-- The abstract primitives the session state machine consumes: the types of
keys, nonces, messages and signatures, together with the nonce aggregator, the
raw partial signer, the signature combiner and the final-signature verifier.
The session code never inspects these; it only plumbs them together. -/
structure MPrims where
  PubKey : Type
  PrivKey : Type
  SecNonce : Type
  PubNonce : Type
  Msg : Type
  Rt : Type
  St : Type
  FinalSig : Type
  Tweak : Type
  Hash : Type
  msgZero : Msg
  aggregateNonces : List PubNonce → Except MusigError PubNonce
  rawSign : SecNonce → PrivKey → PubNonce → List PubKey → Msg → List Tweak →
    Except MusigError (PartialSignature Rt St)
  combineSigs : Rt → List (PartialSignature Rt St) →
    Option (Msg × List PubKey × List Tweak × Bool) → FinalSig
  verify : FinalSig → Msg → PubKey → Bool

/-- The fields of the immutable `Context` struct that the session logic reads. -/
structure SessionCtx (π : MPrims) where
  signingKey : π.PrivKey
  pubKey : π.PubKey
  keySet : List π.PubKey
  combinedKey : π.PubKey
  uniqueKeyIndex : Int
  keysHash : π.Hash
  tweaks : List π.Tweak
  shouldSort : Bool

/-- The mutable `Session` struct of `context.go`. -/
structure Session (π : MPrims) where
  ctx : SessionCtx π
  localNonces : Option (Nonces π.SecNonce π.PubNonce)
  pubNonces : List π.PubNonce
  combinedNonce : Option π.PubNonce
  msg : π.Msg
  ourSig : Option (PartialSignature π.Rt π.St)
  sigs : List (PartialSignature π.Rt π.St)
  finalSig : Option π.FinalSig

/-- `Context.NewSession`: a fresh session holding a newly generated local nonce
pair (the random generation is the caller-supplied `localNonces` argument), the
nonce list seeded with the local public nonce. -/
def SessionCtx.NewSession {π : MPrims} (c : SessionCtx π)
    (localNonces : Nonces π.SecNonce π.PubNonce) : Session π :=
  { ctx := c
    localNonces := some localNonces
    pubNonces := [localNonces.PubNonce]
    combinedNonce := none
    msg := π.msgZero
    ourSig := none
    sigs := []
    finalSig := none }

/-- `Session.PublicNonce` reads `s.localNonces.PubNonce`; after the local nonce
has been consumed the receiver is a nil pointer, so the result is `none`. -/
def Session.PublicNonce {π : MPrims} (s : Session π) : Option π.PubNonce :=
  s.localNonces.map Nonces.PubNonce

/-- `Session.NumRegisteredNonces`. -/
def Session.NumRegisteredNonces {π : MPrims} (s : Session π) : Nat :=
  s.pubNonces.length

/-- `Session.RegisterPubNonce`: a no-op once all nonces are present; otherwise
appends, and aggregates into the combined nonce exactly when the count reaches
the signer count.  Returns the `(bool, error)` pair and the updated session. -/
def Session.RegisterPubNonce {π : MPrims} (s : Session π) (nonce : π.PubNonce) :
    (Bool × Option MusigError) × Session π :=
  if s.pubNonces.length = s.ctx.keySet.length then
    ((false, none), s)
  else
    let pubNonces := s.pubNonces ++ [nonce]
    if pubNonces.length = s.ctx.keySet.length then
      match π.aggregateNonces pubNonces with
      | .error e => ((false, some e), { s with pubNonces := pubNonces })
      | .ok combined =>
          ((true, none), { s with pubNonces := pubNonces, combinedNonce := some combined })
    else
      ((false, none), { s with pubNonces := pubNonces })

/-- `Session.Sign`: records the message, then fails with `SigningContextReuse`
if the local secret nonce was already consumed, or `CombinedNonceUnavailable`
without a combined nonce; otherwise it calls the raw signer, blanks the local
nonce on every path past the checks, and on success stores the partial
signature and appends it to the received-signatures list. -/
def Session.Sign {π : MPrims} (s : Session π) (msg : π.Msg) :
    Except MusigError (PartialSignature π.Rt π.St) × Session π :=
  match s.localNonces with
  | none => (.error .signingContextReuse, { s with msg := msg })
  | some localNonces =>
    match s.combinedNonce with
    | none => (.error .combinedNonceUnavailable, { s with msg := msg })
    | some combinedNonce =>
      match π.rawSign localNonces.SecNonce s.ctx.signingKey combinedNonce
          s.ctx.keySet msg s.ctx.tweaks with
      | .error e => (.error e, { s with msg := msg, localNonces := none })
      | .ok partialSig =>
          (.ok partialSig,
            { s with msg := msg, localNonces := none, ourSig := some partialSig,
                     sigs := s.sigs ++ [partialSig] })

/-- The `CombineOption` data `Session.CombineSig` hands to `CombineSigs` when
the context carries tweaks (`WithTweakedCombine`). -/
def Session.combineOptsOf {π : MPrims} (s : Session π) :
    Option (π.Msg × List π.PubKey × List π.Tweak × Bool) :=
  if s.ctx.tweaks.length = 0 then none
  else some (s.msg, s.ctx.keySet, s.ctx.tweaks, s.ctx.shouldSort)

/-- `Session.CombineSig`: fails with `AlreadyHaveAllSigs` once the signature
count equals the signer count; otherwise appends, and exactly when the count
reaches the signer count combines (reading `s.ourSig.R` — a nil dereference,
modelled as the `none` outcome, if the local signature was never produced) and
verifies, storing the final signature only on successful verification. -/
def Session.CombineSig {π : MPrims} (s : Session π)
    (sig : PartialSignature π.Rt π.St) :
    Option ((Bool × Option MusigError) × Session π) :=
  if s.sigs.length = s.ctx.keySet.length then
    some ((false, some .alreadyHaveAllSigs), s)
  else
    let sigs := s.sigs ++ [sig]
    if sigs.length = s.ctx.keySet.length then
      match s.ourSig with
      | none => none
      | some ourSig =>
        let finalSig := π.combineSigs ourSig.R sigs s.combineOptsOf
        if π.verify finalSig s.msg s.ctx.combinedKey then
          some ((true, none), { s with sigs := sigs, finalSig := some finalSig })
        else
          some ((false, some .finalSigInvalid), { s with sigs := sigs })
    else
      some ((false, none), { s with sigs := sigs })

/-- `Session.FinalSig` returns the stored final signature, if present. -/
def Session.FinalSigOut {π : MPrims} (s : Session π) : Option π.FinalSig :=
  s.finalSig

/-- The sessions reachable through the exported API: a fresh session followed
by any sequence of nonce registrations, signing attempts and signature
combinations (a combination that panics has no successor state). -/
inductive Reachable (π : MPrims) : Session π → Prop where
  | init (c : SessionCtx π) (ln : Nonces π.SecNonce π.PubNonce) :
      Reachable π (c.NewSession ln)
  | register {s : Session π} (n : π.PubNonce) :
      Reachable π s → Reachable π (s.RegisterPubNonce n).2
  | signed {s : Session π} (m : π.Msg) :
      Reachable π s → Reachable π (s.Sign m).2
  | combined {s : Session π} (sig : PartialSignature π.Rt π.St)
      (out : (Bool × Option MusigError) × Session π) :
      Reachable π s → s.CombineSig sig = some out → Reachable π out.2

/-- The state invariant of reachable sessions: while the combined nonce is
missing the local secret nonce is still present, and the combined nonce is only
ever computed at the moment the nonce count reaches the signer count. -/
def SessionInv {π : MPrims} (s : Session π) : Prop :=
  (s.combinedNonce = none → s.localNonces ≠ none) ∧
  (s.combinedNonce ≠ none → s.pubNonces.length = s.ctx.keySet.length)

theorem reachable_inv {π : MPrims} {s : Session π} (h : Reachable π s) :
    SessionInv s := by
  induction h with
  | init c ln =>
      constructor
      · intro _; simp [SessionCtx.NewSession]
      · intro hc; simp [SessionCtx.NewSession] at hc
  | register n hr ih =>
      rename_i s
      obtain ⟨ih1, ih2⟩ := ih
      unfold Session.RegisterPubNonce
      by_cases h1 : s.pubNonces.length = s.ctx.keySet.length
      · simpa [h1] using ⟨ih1, ih2⟩
      · have hcn : s.combinedNonce = none := by
          by_contra hne
          exact h1 (ih2 hne)
        by_cases h2 : (s.pubNonces ++ [n]).length = s.ctx.keySet.length
        · simp only [h1, if_false, h2, if_true]
          cases hagg : π.aggregateNonces (s.pubNonces ++ [n]) with
          | error e =>
              refine ⟨?_, ?_⟩
              · intro _; simpa using ih1 hcn
              · intro hc; simp [hcn] at hc
          | ok combined =>
              refine ⟨?_, ?_⟩
              · intro hc; simp at hc
              · intro _; simpa using h2
        · simp only [h1, if_false, h2, if_true]
          refine ⟨?_, ?_⟩
          · intro _; simpa using ih1 hcn
          · intro hc; simp [hcn] at hc
  | signed m hr ih =>
      rename_i s
      obtain ⟨ih1, ih2⟩ := ih
      cases hln : s.localNonces with
      | none =>
          have hc : s.combinedNonce ≠ none := fun hcn => (ih1 hcn) hln
          simp only [Session.Sign, hln]
          refine ⟨fun hcn => absurd hcn hc, fun _ => ih2 hc⟩
      | some ln =>
          cases hcn : s.combinedNonce with
          | none =>
              simp only [Session.Sign, hln, hcn]
              refine ⟨fun _ => by simp, fun hc => absurd rfl hc⟩
          | some cn =>
              cases hsg : π.rawSign ln.SecNonce s.ctx.signingKey cn s.ctx.keySet m
                  s.ctx.tweaks with
              | error e =>
                  simp only [Session.Sign, hln, hcn, hsg]
                  exact ⟨fun hc => by simp at hc, fun _ => ih2 (by simp [hcn])⟩
              | ok psig =>
                  simp only [Session.Sign, hln, hcn, hsg]
                  exact ⟨fun hc => by simp at hc, fun _ => ih2 (by simp [hcn])⟩
  | combined sig out hr hout ih =>
      rename_i s
      obtain ⟨ih1, ih2⟩ := ih
      unfold Session.CombineSig at hout
      by_cases h1 : s.sigs.length = s.ctx.keySet.length
      · simp only [h1, if_true] at hout
        cases hout
        exact ⟨ih1, ih2⟩
      · by_cases h2 : (s.sigs ++ [sig]).length = s.ctx.keySet.length
        · simp only [h1, if_false, h2, if_true] at hout
          cases hos : s.ourSig with
          | none => simp [hos] at hout
          | some ourSig =>
              simp only [hos] at hout
              by_cases hv : π.verify (π.combineSigs ourSig.R (s.sigs ++ [sig])
                  s.combineOptsOf) s.msg s.ctx.combinedKey
              · simp only [hv, if_true] at hout
                cases hout
                exact ⟨fun hc => ih1 hc, fun hc => ih2 hc⟩
              · simp only [hv, if_false] at hout
                cases hout
                exact ⟨fun hc => ih1 hc, fun hc => ih2 hc⟩
        · simp only [h1, if_false, h2, if_true] at hout
          cases hout
          exact ⟨fun hc => ih1 hc, fun hc => ih2 hc⟩

/-- C1: a `Session` on which `Sign` has already succeeded once answers any
second `Sign` call with `SigningContextReuse`, leaving the stored `ourSig` and
the received-signatures list exactly as the first call left them. -/
theorem sign_second_call_reuse {π : MPrims} (s : Session π) (m m' : π.Msg)
    (psig : PartialSignature π.Rt π.St) (h : (s.Sign m).1 = .ok psig) :
    ((s.Sign m).2.Sign m').1 = .error .signingContextReuse ∧
    ((s.Sign m).2.Sign m').2.ourSig = (s.Sign m).2.ourSig ∧
    ((s.Sign m).2.Sign m').2.sigs = (s.Sign m).2.sigs := by
  cases hln : s.localNonces with
  | none => simp [Session.Sign, hln] at h
  | some ln =>
    cases hcn : s.combinedNonce with
    | none => simp [Session.Sign, hln, hcn] at h
    | some cn =>
      cases hsg : π.rawSign ln.SecNonce s.ctx.signingKey cn s.ctx.keySet m
          s.ctx.tweaks with
      | error e => simp [Session.Sign, hln, hcn, hsg] at h
      | ok p => simp [Session.Sign, hln, hcn, hsg]

/-- C2: on every reachable session, a missing combined nonce (in particular
whenever fewer nonces than signers are registered) makes `Sign` fail with
`CombinedNonceUnavailable`; a successful `Sign` erases the local secret nonce,
records the message, stores the local partial signature and appends it to the
received-signatures list. -/
theorem sign_gate_and_postconditions {π : MPrims} {s : Session π}
    (hr : Reachable π s) :
    (s.pubNonces.length < s.ctx.keySet.length → s.combinedNonce = none) ∧
    (s.combinedNonce = none →
      ∀ m : π.Msg, (s.Sign m).1 = .error .combinedNonceUnavailable) ∧
    (∀ (m : π.Msg) (psig : PartialSignature π.Rt π.St), (s.Sign m).1 = .ok psig →
      (s.Sign m).2.localNonces = none ∧ (s.Sign m).2.msg = m ∧
      (s.Sign m).2.ourSig = some psig ∧ (s.Sign m).2.sigs = s.sigs ++ [psig]) := by
  obtain ⟨ih1, ih2⟩ := reachable_inv hr
  refine ⟨?_, ?_, ?_⟩
  · intro hlt
    by_contra hne
    have hlen := ih2 hne
    omega
  · intro hcn m
    have hln := ih1 hcn
    cases hln' : s.localNonces with
    | none => exact absurd hln' hln
    | some ln => simp [Session.Sign, hln', hcn]
  · intro m psig h
    cases hln : s.localNonces with
    | none => simp [Session.Sign, hln] at h
    | some ln =>
      cases hcn : s.combinedNonce with
      | none => simp [Session.Sign, hln, hcn] at h
      | some cn =>
        cases hsg : π.rawSign ln.SecNonce s.ctx.signingKey cn s.ctx.keySet m
            s.ctx.tweaks with
        | error e => simp [Session.Sign, hln, hcn, hsg] at h
        | ok p =>
          simp only [Session.Sign, hln, hcn, hsg] at h ⊢
          have hps : p = psig := by simpa using h
          subst hps
          simp

/-- C3 (amended): `CombineSig` answers `AlreadyHaveAllSigs` and changes nothing
once the signature count equals the signer count; otherwise it appends, and
when the count thereby reaches the signer count — provided the local partial
signature is present — it combines and verifies, storing the final signature
exactly on successful verification and answering `FinalSigInvalid` (with the
stored final signature untouched) on failure. -/
theorem combineSig_spec {π : MPrims} (s : Session π)
    (sig : PartialSignature π.Rt π.St) :
    (s.sigs.length = s.ctx.keySet.length →
      s.CombineSig sig = some ((false, some .alreadyHaveAllSigs), s)) ∧
    (s.sigs.length ≠ s.ctx.keySet.length →
      s.sigs.length + 1 ≠ s.ctx.keySet.length →
      s.CombineSig sig = some ((false, none), { s with sigs := s.sigs ++ [sig] })) ∧
    (∀ ourSig, s.ourSig = some ourSig →
      s.sigs.length ≠ s.ctx.keySet.length →
      s.sigs.length + 1 = s.ctx.keySet.length →
      (π.verify (π.combineSigs ourSig.R (s.sigs ++ [sig]) s.combineOptsOf) s.msg
          s.ctx.combinedKey = true →
        s.CombineSig sig = some ((true, none),
          { s with sigs := s.sigs ++ [sig],
                   finalSig := some (π.combineSigs ourSig.R (s.sigs ++ [sig])
                     s.combineOptsOf) })) ∧
      (π.verify (π.combineSigs ourSig.R (s.sigs ++ [sig]) s.combineOptsOf) s.msg
          s.ctx.combinedKey = false →
        s.CombineSig sig = some ((false, some .finalSigInvalid),
          { s with sigs := s.sigs ++ [sig] }))) := by
  refine ⟨?_, ?_, ?_⟩
  · intro h1
    simp [Session.CombineSig, h1]
  · intro h1 h2
    simp [Session.CombineSig, h1, h2]
  · intro ourSig hos h1 h2
    constructor
    · intro hv
      simp [Session.CombineSig, h1, h2, hos, hv]
    · intro hv
      simp [Session.CombineSig, h1, h2, hos, hv]

/-- C4: once all nonces are registered, a further `RegisterPubNonce` call is a
pure no-op: it returns without an error and the session is unchanged. -/
theorem registerPubNonce_after_complete {π : MPrims} (s : Session π)
    (n : π.PubNonce) (h : s.pubNonces.length = s.ctx.keySet.length) :
    s.RegisterPubNonce n = ((false, none), s) := by
  simp [Session.RegisterPubNonce, h]

/-- C9 (amended): `PublicNonce` panics (dereferences an absent nonce) exactly
when the local nonce has been consumed, and `CombineSig` panics exactly when
the incoming signature makes the count reach the signer count while the local
partial signature was never produced; in all other states both are total. -/
theorem session_totality_domains {π : MPrims} (s : Session π) :
    (s.PublicNonce = none ↔ s.localNonces = none) ∧
    (∀ sig : PartialSignature π.Rt π.St,
      s.CombineSig sig = none ↔
        (s.ourSig = none ∧ s.sigs.length ≠ s.ctx.keySet.length ∧
         s.sigs.length + 1 = s.ctx.keySet.length)) := by
  constructor
  · simp only [Session.PublicNonce]
    cases s.localNonces <;> simp
  · intro sig
    by_cases h1 : s.sigs.length = s.ctx.keySet.length
    · simp [Session.CombineSig, h1]
    · by_cases h2 : s.sigs.length + 1 = s.ctx.keySet.length
      · cases hos : s.ourSig with
        | none => simp [Session.CombineSig, h1, h2, hos]
        | some our =>
            by_cases hv : π.verify (π.combineSigs our.R (s.sigs ++ [sig])
                s.combineOptsOf) s.msg s.ctx.combinedKey = true
            · simp [Session.CombineSig, h1, h2, hos, hv]
            · simp [Session.CombineSig, h1, h2, hos, hv]
      · simp [Session.CombineSig, h1, h2]

/-- A concrete instantiation of the session primitives over `Nat`, used to
exercise the session theorems on explicit states. -/
abbrev π₀ : MPrims where
  PubKey := Nat
  PrivKey := Nat
  SecNonce := Nat
  PubNonce := Nat
  Msg := Nat
  Rt := Nat
  St := Nat
  FinalSig := Nat
  Tweak := Nat
  Hash := Nat
  msgZero := 0
  aggregateNonces := fun l => .ok l.sum
  rawSign := fun sn _ _ _ m _ => .ok ⟨sn + m, sn * m⟩
  combineSigs := fun r sigs _ => r + sigs.length
  verify := fun _ _ _ => true

/-- A two-signer context over the concrete primitives. -/
def ctx₀ : SessionCtx π₀ :=
  { signingKey := 1, pubKey := 2, keySet := [2, 3], combinedKey := 9,
    uniqueKeyIndex := 1, keysHash := 7, tweaks := [], shouldSort := true }

/-- A single-signer context over the concrete primitives. -/
def ctx₁ : SessionCtx π₀ :=
  { signingKey := 1, pubKey := 2, keySet := [2], combinedKey := 9,
    uniqueKeyIndex := -1, keysHash := 7, tweaks := [], shouldSort := false }

/-- A two-signer session whose nonce round is complete. -/
def sess₀ : Session π₀ := ((ctx₀.NewSession ⟨5, 6⟩).RegisterPubNonce 8).2

/-- A two-signer session holding all partial signatures. -/
def sessFull : Session π₀ :=
  { ctx := ctx₀, localNonces := none, pubNonces := [6, 8],
    combinedNonce := some 14, msg := 3, ourSig := some ⟨8, 15⟩,
    sigs := [⟨8, 15⟩, ⟨4, 4⟩], finalSig := none }

theorem sign_second_call_reuse_witness :
    ((sess₀.Sign 3).2.Sign 4).1 = .error .signingContextReuse ∧
    ((sess₀.Sign 3).2.Sign 4).2.ourSig = (sess₀.Sign 3).2.ourSig :=
  ⟨(sign_second_call_reuse sess₀ 3 4 ⟨8, 15⟩ rfl).1,
   (sign_second_call_reuse sess₀ 3 4 ⟨8, 15⟩ rfl).2.1⟩

theorem sign_gate_and_postconditions_witness :
    (sess₀.Sign 3).2.ourSig = some ⟨8, 15⟩ ∧
    (sess₀.Sign 3).2.sigs = sess₀.sigs ++ [⟨8, 15⟩] := by
  have hr : Reachable π₀ sess₀ :=
    Reachable.register 8 (Reachable.init ctx₀ ⟨5, 6⟩)
  have h := (sign_gate_and_postconditions hr).2.2 3 ⟨8, 15⟩ rfl
  exact ⟨h.2.2.1, h.2.2.2⟩

/-- C3 counterexample: on a one-signer session that never signed locally, the
incoming partial signature makes the count reach the signer count, yet
`CombineSig` neither combines-and-verifies nor reports an error — it
dereferences the absent `ourSig` (a nil-pointer panic, modelled as `none`). -/
theorem combineSig_without_sign_counterexample :
    (ctx₁.NewSession ⟨7, 8⟩).sigs.length + 1 =
      (ctx₁.NewSession ⟨7, 8⟩).ctx.keySet.length ∧
    (ctx₁.NewSession ⟨7, 8⟩).CombineSig ⟨2, 2⟩ = none := ⟨rfl, rfl⟩

theorem combineSig_spec_witness :
    sessFull.CombineSig ⟨1, 1⟩ =
      some ((false, some .alreadyHaveAllSigs), sessFull) :=
  (combineSig_spec sessFull ⟨1, 1⟩).1 rfl

theorem registerPubNonce_after_complete_witness :
    sess₀.RegisterPubNonce 9 = ((false, none), sess₀) :=
  registerPubNonce_after_complete sess₀ 9 rfl

/-- C9 counterexample: calling `PublicNonce` after `Sign` has consumed the
local nonce dereferences a nil pointer (modelled as `none`), and so does
`CombineSig` when the signature count completes without a prior local
signature. -/
theorem session_not_total_counterexample :
    (sess₀.Sign 3).2.PublicNonce = none ∧
    (ctx₁.NewSession ⟨5, 6⟩).CombineSig ⟨1, 1⟩ = none := ⟨rfl, rfl⟩

theorem session_totality_domains_witness :
    (ctx₁.NewSession ⟨9, 10⟩).CombineSig ⟨3, 3⟩ = none :=
  ((session_totality_domains (ctx₁.NewSession ⟨9, 10⟩)).2 ⟨3, 3⟩).mpr
    ⟨rfl, by decide, by decide⟩

section KeyAgg

variable {P S H C : Type} [AddCommMonoid P] [LinearOrder S] [One C]

/-- `sort.IsSorted` over `sortableKeys.Less`: no adjacent pair of keys is
strictly descending in the x-only serialization order. -/
def isSortedKeys (ser : P → S) : List P → Bool
  | a :: b :: rest => decide (ser a ≤ ser b) && isSortedKeys ser (b :: rest)
  | _ => true

instance instDecRelSerLE (ser : P → S) :
    DecidableRel (fun a b : P => ser a ≤ ser b) :=
  fun a b => inferInstanceAs (Decidable (ser a ≤ ser b))

/-- `sortKeys`: returns the keys unchanged when already sorted, otherwise the
keys sorted by ascending x-only serialization (`sort.Sort` over `Less`). -/
def sortKeys (ser : P → S) (keys : List P) : List P :=
  if isSortedKeys ser keys then keys
  else List.insertionSort (fun a b => ser a ≤ ser b) keys

/-- `sortKeys`, state-passing view of the Go slice: the first component is the
returned slice, the second the contents of the caller's backing array after
the call (`sort.Sort` mutates it in place; no copy is ever made). -/
def sortKeysSt (ser : P → S) (keys : List P) : List P × List P :=
  (sortKeys ser keys, sortKeys ser keys)

/-- `keyHashFingerprint`: tagged hash of the concatenated serializations of
the (sorted, when requested) keys. -/
def keyHashFingerprint (ser : P → S) (hashL : List S → H) (keys : List P)
    (doSort : Bool) : H :=
  let ks := if doSort then sortKeys ser keys else keys
  hashL (ks.map ser)

/-- `keyHashFingerprint`, state-passing view: second component is the contents
of the caller's key slice after the call. -/
def keyHashFingerprintSt (ser : P → S) (hashL : List S → H) (keys : List P)
    (doSort : Bool) : H × List P :=
  (keyHashFingerprint ser hashL keys doSort,
   if doSort then sortKeys ser keys else keys)

/-- `keyBytesEqual`: BIP-340 32-byte x-only equality of two keys. -/
def keyBytesEqual (ser : P → S) (a b : P) : Bool :=
  decide (ser a = ser b)

/-- The loop of `secondUniqueKeyIndex`: walk the serialized keys, returning
the current index at the first key whose serialization differs from the first
key's, `-1` when none differs. -/
def secondIdxAux (s0 : S) : List S → Nat → Int
  | [], _ => -1
  | s :: rest, i => if s = s0 then secondIdxAux s0 rest (i + 1) else (i : Int)

/-- `secondUniqueKeyIndex`: index of the first key differing (by x-only
serialization) from the first key; `-1` if all keys are equal. -/
def secondUniqueKeyIndex (ser : P → S) (keys : List P) : Int :=
  match keys with
  | [] => -1
  | k0 :: _ => secondIdxAux (ser k0) (keys.map ser) 0

/-- `aggregationCoefficient`: `1` when a second-unique index is present and the
target key matches (by serialization) the key at that index, otherwise the
tagged coefficient hash of `keysHash` and the target key's serialization. -/
def aggregationCoefficient (ser : P → S) (hashC : H → S → C) (keySet : List P)
    (targetKey : P) (keysHash : H) (secondKeyIdx : Int) : C :=
  if secondKeyIdx ≠ -1 ∧
      (keySet.get? secondKeyIdx.toNat).map ser = some (ser targetKey) then
    (1 : C)
  else hashC keysHash (ser targetKey)

/-- The serialization-level form of `aggregationCoefficient`: the coefficient
depends on the key set only through its list of serializations. -/
def aggregationCoefficientSer (hashC : H → S → C) (serList : List S)
    (targetSer : S) (keysHash : H) (secondKeyIdx : Int) : C :=
  if secondKeyIdx ≠ -1 ∧ serList.get? secondKeyIdx.toNat = some targetSer then
    (1 : C)
  else hashC keysHash targetSer

/-- `AggregateKeys`: sort when requested, take (or compute) the keys hash and
the second-unique index, then accumulate `coefficient_i * key_i` over all keys
into the combined key, starting from the identity. -/
def AggregateKeys (ser : P → S) (hashL : List S → H) (hashC : H → S → C)
    (csmul : C → P → P) (keys : List P) (doSort : Bool)
    (optKeyHash : Option H) (optUniqueIdx : Option Int) : P :=
  let keys := if doSort then sortKeys ser keys else keys
  let keysHash :=
    match optKeyHash with
    | some h => h
    | none => keyHashFingerprint ser hashL keys doSort
  let uniqueKeyIndex :=
    match optUniqueIdx with
    | some i => i
    | none => secondUniqueKeyIndex ser keys
  keys.foldl (fun acc key =>
    acc + csmul (aggregationCoefficient ser hashC keys key keysHash
      uniqueKeyIndex) key) 0

/-- `AggregateKeys`, state-passing view: second component is the contents of
the caller's key slice after the call. -/
def AggregateKeysSt (ser : P → S) (hashL : List S → H) (hashC : H → S → C)
    (csmul : C → P → P) (keys : List P) (doSort : Bool)
    (optKeyHash : Option H) (optUniqueIdx : Option Int) : P × List P :=
  (AggregateKeys ser hashL hashC csmul keys doSort optKeyHash optUniqueIdx,
   if doSort then sortKeys ser keys else keys)

/-- Modelled from the spec: §4.1 demands that aggregation fail with
`InvalidKeyData` on an empty key list; the aggregation routine in the source
has no error return at all, so the specified behaviour is stated separately
for comparison against the code. -/
def aggregateKeysSpecced (ser : P → S) (hashL : List S → H) (hashC : H → S → C)
    (csmul : C → P → P) (keys : List P) (doSort : Bool) :
    Except MusigError P :=
  if keys.isEmpty then .error .invalidKeyData
  else .ok (AggregateKeys ser hashL hashC csmul keys doSort none none)

/-- The `Context` struct built by `NewContext`. -/
structure Context (P H Twk PrivK : Type) where
  signingKey : PrivK
  pubKey : P
  keySet : List P
  combinedKey : P
  uniqueKeyIndex : Int
  keysHash : H
  tweaks : List Twk
  shouldSort : Bool

/-- Modelled from the spec: `NewContext` computes the second-unique-key index
of the (sorted) key list (§4.1); the sorted variant of the index helper that
`NewContext` calls is not part of the aggregation source, so it is modelled as
sorting first whenever the flag is set. -/
def secondUniqueKeyIndexSorted (ser : P → S) (keys : List P)
    (doSort : Bool) : Int :=
  secondUniqueKeyIndex ser (if doSort then sortKeys ser keys else keys)

/-- `NewContext`: normalize the signing key's public key to its even-y form
(`ParsePubKey (SerializePubKey pk)`), fail with `SignerNotInKeySet` unless
some signer equals (`IsEqual`, full point equality) that normalized key, then
precompute the keys hash, the unique key index and the aggregated key. -/
def NewContext {PrivK Twk : Type} [DecidableEq P] (ser : P → S)
    (hashL : List S → H) (hashC : H → S → C) (csmul : C → P → P)
    (pubOf : PrivK → P) (xnorm : P → P) (signingKey : PrivK)
    (signers : List P) (shouldSort : Bool) (tweaks : List Twk) :
    Except MusigError (Context P H Twk PrivK) :=
  let pubKey := xnorm (pubOf signingKey)
  if signers.any (fun key => decide (key = pubKey)) then
    let keysHash := keyHashFingerprint ser hashL signers shouldSort
    let uniqueKeyIndex := secondUniqueKeyIndexSorted ser signers shouldSort
    let combinedKey := AggregateKeys ser hashL hashC csmul signers shouldSort
      (some keysHash) (some uniqueKeyIndex)
    .ok { signingKey := signingKey, pubKey := pubKey, keySet := signers,
          combinedKey := combinedKey, uniqueKeyIndex := uniqueKeyIndex,
          keysHash := keysHash, tweaks := tweaks, shouldSort := shouldSort }
  else .error .signerNotInKeySet

theorem isSortedKeys_eq_chain (ser : P → S) :
    ∀ l : List P, isSortedKeys ser l = true ↔
      List.Chain' (fun a b => ser a ≤ ser b) l
  | [] => by simp [isSortedKeys]
  | [a] => by simp [isSortedKeys]
  | a :: b :: t => by
      rw [show isSortedKeys ser (a :: b :: t) =
            (decide (ser a ≤ ser b) && isSortedKeys ser (b :: t)) from rfl,
          List.chain'_cons, Bool.and_eq_true,
          isSortedKeys_eq_chain ser (b :: t)]
      simp

theorem isSortedKeys_iff (ser : P → S) (l : List P) :
    isSortedKeys ser l = true ↔
      List.Pairwise (fun a b => ser a ≤ ser b) l := by
  rw [isSortedKeys_eq_chain]
  haveI : IsTrans P fun a b => ser a ≤ ser b := ⟨fun _ _ _ => le_trans⟩
  exact List.chain'_iff_pairwise

theorem sortKeys_perm (ser : P → S) (l : List P) : (sortKeys ser l).Perm l := by
  unfold sortKeys
  split
  · exact List.Perm.refl l
  · exact List.perm_insertionSort _ l

theorem sortKeys_pairwise (ser : P → S) (l : List P) :
    List.Pairwise (fun a b => ser a ≤ ser b) (sortKeys ser l) := by
  unfold sortKeys
  split
  · exact (isSortedKeys_iff ser l).mp (by assumption)
  · haveI : IsTotal P fun a b => ser a ≤ ser b := ⟨fun a b => le_total _ _⟩
    haveI : IsTrans P fun a b => ser a ≤ ser b := ⟨fun _ _ _ => le_trans⟩
    exact List.sorted_insertionSort _ l

theorem sortKeys_eq_self (ser : P → S) {l : List P}
    (h : List.Pairwise (fun a b => ser a ≤ ser b) l) : sortKeys ser l = l := by
  unfold sortKeys
  rw [if_pos ((isSortedKeys_iff ser l).mpr h)]

theorem sortKeys_idem (ser : P → S) (l : List P) :
    sortKeys ser (sortKeys ser l) = sortKeys ser l :=
  sortKeys_eq_self ser (sortKeys_pairwise ser l)

theorem map_sortKeys_sorted (ser : P → S) (l : List P) :
    List.Sorted (· ≤ ·) ((sortKeys ser l).map ser) := by
  rw [List.Sorted, List.pairwise_map]
  exact sortKeys_pairwise ser l

theorem map_get?_eq (f : P → S) :
    ∀ (l : List P) (n : Nat), (l.map f).get? n = (l.get? n).map f
  | [], _ => by simp
  | _ :: _, 0 => rfl
  | _ :: t, n + 1 => by simpa using map_get?_eq f t n

theorem secondIdxAux_neg_iff (s0 : S) :
    ∀ (l : List S) (i : Nat), secondIdxAux s0 l i = -1 ↔ ∀ s ∈ l, s = s0
  | [], i => by simp [secondIdxAux]
  | s :: t, i => by
      by_cases h : s = s0
      · simp [secondIdxAux, h, secondIdxAux_neg_iff s0 t (i + 1)]
      · simp only [secondIdxAux, if_neg h]
        constructor
        · intro hh
          exfalso
          omega
        · intro hh
          exact absurd (hh s (List.mem_cons_self s t)) h

theorem secondIdxAux_pos (s0 : S) :
    ∀ (l : List S) (i n : Nat), secondIdxAux s0 l i = (n : Int) →
      ∃ m, n = i + m ∧ (∀ j, j < m → l.get? j = some s0) ∧
        ∃ sn, l.get? m = some sn ∧ sn ≠ s0
  | [], i, n => by
      intro h
      exfalso
      simp only [secondIdxAux] at h
      omega
  | s :: t, i, n => by
      intro h
      by_cases hs : s = s0
      · simp only [secondIdxAux, if_pos hs] at h
        obtain ⟨m, hm, hall, sn, hsn, hne⟩ := secondIdxAux_pos s0 t (i + 1) n h
        refine ⟨m + 1, by omega, ?_, sn, by simpa using hsn, hne⟩
        intro j hj
        cases j with
        | zero => simp [hs]
        | succ j => simpa using hall j (by omega)
      · simp only [secondIdxAux, if_neg hs] at h
        have hn : n = i := by omega
        subst hn
        exact ⟨0, by omega, fun j hj => absurd hj (by omega), s, rfl, hs⟩

theorem secondUniqueKeyIndex_neg_iff (ser : P → S) (k0 : P) (rest : List P) :
    secondUniqueKeyIndex ser (k0 :: rest) = -1 ↔
      ∀ k ∈ k0 :: rest, ser k = ser k0 := by
  unfold secondUniqueKeyIndex
  rw [secondIdxAux_neg_iff]
  constructor
  · intro h k hk
    exact h (ser k) (List.mem_map_of_mem ser hk)
  · intro h s hs
    obtain ⟨k, hk, rfl⟩ := List.mem_map.mp hs
    exact h k hk

theorem secondUniqueKeyIndex_congr (ser : P → S) {l l' : List P}
    (h : l.map ser = l'.map ser) :
    secondUniqueKeyIndex ser l = secondUniqueKeyIndex ser l' := by
  cases l with
  | nil =>
      cases l' with
      | nil => rfl
      | cons a t => simp at h
  | cons a t =>
      cases l' with
      | nil => simp at h
      | cons a' t' =>
          have hh : ser a = ser a' := by
            have := congrArg List.head? h
            simpa using this
          show secondIdxAux (ser a) ((a :: t).map ser) 0 =
            secondIdxAux (ser a') ((a' :: t').map ser) 0
          rw [h, hh]

theorem aggregationCoefficient_eq_ser (ser : P → S) (hashC : H → S → C)
    (keySet : List P) (k : P) (kh : H) (idx : Int) :
    aggregationCoefficient ser hashC keySet k kh idx =
      aggregationCoefficientSer hashC (keySet.map ser) (ser k) kh idx := by
  unfold aggregationCoefficient aggregationCoefficientSer
  by_cases hc : idx ≠ -1 ∧ (keySet.get? idx.toNat).map ser = some (ser k)
  · rw [if_pos hc, if_pos ⟨hc.1, by rw [map_get?_eq]; exact hc.2⟩]
  · rw [if_neg hc, if_neg]
    intro hc'
    exact hc ⟨hc'.1, by rw [← map_get?_eq]; exact hc'.2⟩

theorem foldl_add_eq_sum (f : P → P) :
    ∀ (l : List P) (a : P),
      l.foldl (fun acc x => acc + f x) a = a + (l.map f).sum
  | [], a => by simp
  | x :: t, a => by
      rw [List.foldl_cons, foldl_add_eq_sum f t (a + f x)]
      simp [add_assoc]

/-- C5: with sorting enabled, `AggregateKeys` is invariant under permutation
of the input key list. -/
theorem AggregateKeys_perm_invariant (ser : P → S) (hashL : List S → H)
    (hashC : H → S → C) (csmul : C → P → P) (K Kp : List P)
    (hne : K ≠ []) (hperm : K.Perm Kp) :
    AggregateKeys ser hashL hashC csmul K true none none =
      AggregateKeys ser hashL hashC csmul Kp true none none := by
  have hLL : (sortKeys ser K).Perm (sortKeys ser Kp) :=
    ((sortKeys_perm ser K).trans hperm).trans (sortKeys_perm ser Kp).symm
  have hmap : (sortKeys ser K).map ser = (sortKeys ser Kp).map ser :=
    List.eq_of_perm_of_sorted (hLL.map ser)
      (map_sortKeys_sorted ser K) (map_sortKeys_sorted ser Kp)
  have hkh : keyHashFingerprint ser hashL (sortKeys ser K) true =
      keyHashFingerprint ser hashL (sortKeys ser Kp) true := by
    unfold keyHashFingerprint
    simp only [if_true]
    rw [sortKeys_idem, sortKeys_idem, hmap]
  have hidx : secondUniqueKeyIndex ser (sortKeys ser K) =
      secondUniqueKeyIndex ser (sortKeys ser Kp) :=
    secondUniqueKeyIndex_congr ser hmap
  simp only [AggregateKeys, if_true]
  rw [foldl_add_eq_sum, foldl_add_eq_sum, zero_add, zero_add]
  rw [hkh, hidx]
  have hmapf :
      (sortKeys ser K).map (fun key => csmul
        (aggregationCoefficient ser hashC (sortKeys ser K) key
          (keyHashFingerprint ser hashL (sortKeys ser Kp) true)
          (secondUniqueKeyIndex ser (sortKeys ser Kp))) key) =
      (sortKeys ser K).map (fun key => csmul
        (aggregationCoefficientSer hashC ((sortKeys ser Kp).map ser) (ser key)
          (keyHashFingerprint ser hashL (sortKeys ser Kp) true)
          (secondUniqueKeyIndex ser (sortKeys ser Kp))) key) := by
    refine List.map_congr_left ?_
    intro k _
    rw [aggregationCoefficient_eq_ser, hmap]
  have hmapf' :
      (sortKeys ser Kp).map (fun key => csmul
        (aggregationCoefficient ser hashC (sortKeys ser Kp) key
          (keyHashFingerprint ser hashL (sortKeys ser Kp) true)
          (secondUniqueKeyIndex ser (sortKeys ser Kp))) key) =
      (sortKeys ser Kp).map (fun key => csmul
        (aggregationCoefficientSer hashC ((sortKeys ser Kp).map ser) (ser key)
          (keyHashFingerprint ser hashL (sortKeys ser Kp) true)
          (secondUniqueKeyIndex ser (sortKeys ser Kp))) key) := by
    refine List.map_congr_left ?_
    intro k _
    rw [aggregationCoefficient_eq_ser]
  rw [hmapf, hmapf']
  exact (hLL.map _).sum_eq

/-- C7: the second-unique index is `-1` exactly when all keys serialize like
the first key, and otherwise points at the first key differing from the first
key; a key's aggregation coefficient is `1` exactly when a second-unique index
exists and the key matches it by serialization (given that the coefficient
hash is not itself `1`); in the all-equal case every key's coefficient is the
tagged-hash output. -/
theorem aggregationCoefficient_second_unique_spec (ser : P → S)
    (hashC : H → S → C) (k0 : P) (rest : List P) (kh : H) :
    (secondUniqueKeyIndex ser (k0 :: rest) = -1 ↔
      ∀ k ∈ k0 :: rest, ser k = ser k0) ∧
    (∀ n : Nat, secondUniqueKeyIndex ser (k0 :: rest) = (n : Int) →
      (∀ j, j < n → ((k0 :: rest).map ser).get? j = some (ser k0)) ∧
      ∃ kn, (k0 :: rest).get? n = some kn ∧ ser kn ≠ ser k0) ∧
    (∀ k, hashC kh (ser k) ≠ 1 →
      (aggregationCoefficient ser hashC (k0 :: rest) k kh
          (secondUniqueKeyIndex ser (k0 :: rest)) = 1 ↔
        secondUniqueKeyIndex ser (k0 :: rest) ≠ -1 ∧
        (((k0 :: rest).get? (secondUniqueKeyIndex ser (k0 :: rest)).toNat).map
          ser = some (ser k)))) ∧
    ((∀ k ∈ k0 :: rest, ser k = ser k0) → ∀ k,
      aggregationCoefficient ser hashC (k0 :: rest) k kh
        (secondUniqueKeyIndex ser (k0 :: rest)) = hashC kh (ser k)) := by
  refine ⟨secondUniqueKeyIndex_neg_iff ser k0 rest, ?_, ?_, ?_⟩
  · intro n hn
    have hn' : secondIdxAux (ser k0) ((k0 :: rest).map ser) 0 = (n : Int) := hn
    obtain ⟨m, hm, hall, sn, hsn, hne⟩ :=
      secondIdxAux_pos (ser k0) ((k0 :: rest).map ser) 0 n hn'
    have hm0 : m = n := by omega
    subst hm0
    refine ⟨fun j hj => hall j hj, ?_⟩
    rw [map_get?_eq] at hsn
    cases hget : (k0 :: rest).get? m with
    | none => rw [hget] at hsn; simp at hsn
    | some kn =>
        rw [hget] at hsn
        have : ser kn = sn := by simpa using hsn
        exact ⟨kn, rfl, this ▸ hne⟩
  · intro k hk1
    by_cases hc : secondUniqueKeyIndex ser (k0 :: rest) ≠ -1 ∧
        (((k0 :: rest).get? (secondUniqueKeyIndex ser
          (k0 :: rest)).toNat).map ser = some (ser k))
    · unfold aggregationCoefficient
      rw [if_pos hc]
      exact ⟨fun _ => hc, fun _ => rfl⟩
    · unfold aggregationCoefficient
      rw [if_neg hc]
      exact ⟨fun h => absurd h hk1, fun h => absurd h hc⟩
  · intro hall k
    have hidx : secondUniqueKeyIndex ser (k0 :: rest) = -1 :=
      (secondUniqueKeyIndex_neg_iff ser k0 rest).mpr hall
    unfold aggregationCoefficient
    rw [if_neg]
    intro hcc
    exact hcc.1 hidx

/-- C8 (amended): `AggregateKeys` has no failure mode at all: on an empty key
list it returns the identity point, and on a degenerate all-equal key list it
still aggregates, every coefficient being the tagged-hash output. -/
theorem AggregateKeys_total_spec (ser : P → S) (hashL : List S → H)
    (hashC : H → S → C) (csmul : C → P → P) :
    (∀ (doSort : Bool) (optH : Option H) (optI : Option Int),
      AggregateKeys ser hashL hashC csmul [] doSort optH optI = 0) ∧
    (∀ (k0 : P) (rest : List P), (∀ k ∈ k0 :: rest, ser k = ser k0) →
      AggregateKeys ser hashL hashC csmul (k0 :: rest) true none none =
        (k0 :: rest).foldl (fun acc key =>
          acc + csmul (hashC (hashL ((k0 :: rest).map ser)) (ser key)) key)
          0) := by
  constructor
  · intro doSort optH optI
    have hnil : sortKeys ser ([] : List P) = [] := rfl
    cases doSort <;> simp [AggregateKeys, hnil]
  · intro k0 rest hall
    have hpair : List.Pairwise (fun a b => ser a ≤ ser b) (k0 :: rest) := by
      refine List.pairwise_of_forall_mem_list ?_
      intro a ha b hb
      rw [hall a ha, hall b hb]
    have hsort : sortKeys ser (k0 :: rest) = k0 :: rest :=
      sortKeys_eq_self ser hpair
    have hidx : secondUniqueKeyIndex ser (k0 :: rest) = -1 :=
      (secondUniqueKeyIndex_neg_iff ser k0 rest).mpr hall
    have hkh : keyHashFingerprint ser hashL (k0 :: rest) true =
        hashL ((k0 :: rest).map ser) := by
      unfold keyHashFingerprint
      simp only [if_true, hsort]
    simp only [AggregateKeys, if_true, hsort, hkh, hidx]
    have hfun : (fun (acc : P) key => acc + csmul
        (aggregationCoefficient ser hashC (k0 :: rest) key
          (hashL ((k0 :: rest).map ser)) (-1)) key) =
        (fun (acc : P) key => acc + csmul
          (hashC (hashL ((k0 :: rest).map ser)) (ser key)) key) := by
      funext acc key
      unfold aggregationCoefficient
      rw [if_neg]
      intro hcc
      exact hcc.1 rfl
    rw [hfun]

/-- C10: `sortKeys` sorts the caller's slice in place: the returned slice is
the backing array itself, the post-call contents are a permutation of the
input, they equal the input exactly when it was already sorted, and
`keyHashFingerprint`/`AggregateKeys` with sorting enabled leave the caller's
slice sorted as a side effect. -/
theorem sortKeys_in_place_spec (ser : P → S) (l : List P) :
    ((sortKeysSt ser l).2 = (sortKeysSt ser l).1) ∧
    ((sortKeysSt ser l).2).Perm l ∧
    (isSortedKeys ser l = true → sortKeysSt ser l = (l, l)) ∧
    (isSortedKeys ser l = false → (sortKeysSt ser l).2 ≠ l) ∧
    (∀ hashL : List S → H, (keyHashFingerprintSt ser hashL l true).2 =
      (sortKeysSt ser l).2) ∧
    (∀ (hashL : List S → H) (hashC : H → S → C) (csmul : C → P → P)
        (optH : Option H) (optI : Option Int),
      (AggregateKeysSt ser hashL hashC csmul l true optH optI).2 =
        (sortKeysSt ser l).2) := by
  refine ⟨rfl, sortKeys_perm ser l, ?_, ?_, fun _ => rfl,
    fun _ _ _ _ _ => rfl⟩
  · intro h
    unfold sortKeysSt sortKeys
    rw [if_pos h]
  · intro h habs
    have hp := sortKeys_pairwise ser l
    have habs' : sortKeys ser l = l := habs
    rw [habs'] at hp
    have htrue := (isSortedKeys_iff ser l).mpr hp
    rw [h] at htrue
    simp at htrue

/-- C6 (amended): `NewContext` fails with `SignerNotInKeySet` — independently
of every aggregation parameter — exactly when no signer-list entry equals, as
a full point, the even-y normalization of the signing key's public key; when
one does, construction succeeds. -/
theorem NewContext_signer_check {PrivK Twk : Type} [DecidableEq P]
    (ser : P → S) (hashL : List S → H) (hashC : H → S → C) (csmul : C → P → P)
    (pubOf : PrivK → P) (xnorm : P → P) (signingKey : PrivK)
    (signers : List P) (shouldSort : Bool) (tweaks : List Twk) :
    (NewContext ser hashL hashC csmul pubOf xnorm signingKey signers
        shouldSort tweaks = .error .signerNotInKeySet ↔
      ∀ k ∈ signers, k ≠ xnorm (pubOf signingKey)) ∧
    ((∃ k ∈ signers, k = xnorm (pubOf signingKey)) →
      ∃ c, NewContext ser hashL hashC csmul pubOf xnorm signingKey signers
          shouldSort tweaks = .ok c ∧ c.keySet = signers ∧
        c.pubKey = xnorm (pubOf signingKey)) := by
  by_cases h : signers.any
      (fun key => decide (key = xnorm (pubOf signingKey))) = true
  · have hex : ∃ k ∈ signers, k = xnorm (pubOf signingKey) := by
      simpa using h
    constructor
    · constructor
      · intro habs
        simp [NewContext, h] at habs
      · intro hall
        obtain ⟨k, hk, hkeq⟩ := hex
        exact absurd hkeq (hall k hk)
    · intro _
      refine ⟨⟨signingKey, xnorm (pubOf signingKey), signers,
        AggregateKeys ser hashL hashC csmul signers shouldSort
          (some (keyHashFingerprint ser hashL signers shouldSort))
          (some (secondUniqueKeyIndexSorted ser signers shouldSort)),
        secondUniqueKeyIndexSorted ser signers shouldSort,
        keyHashFingerprint ser hashL signers shouldSort, tweaks,
        shouldSort⟩, ?_, rfl, rfl⟩
      simp [NewContext, h]
  · have hall : ∀ k ∈ signers, k ≠ xnorm (pubOf signingKey) := by
      intro k hk hkeq
      exact h (List.any_eq_true.mpr ⟨k, hk, by simpa using hkeq⟩)
    constructor
    · constructor
      · intro _; exact hall
      · intro _
        simp [NewContext, h]
    · intro hex
      obtain ⟨k, hk, hkeq⟩ := hex
      exact absurd hkeq (hall k hk)

end KeyAgg

/-- Concrete elliptic-curve stand-ins used to exercise the key-aggregation
theorems: a point is an explicit coordinate pair, its serialization is the
x-coordinate, even-y normalization zeroes the y-coordinate. -/
def serK : ℤ × ℤ → ℤ := Prod.fst

/-- Concrete list-hash stand-in. -/
def hashLK : List ℤ → List ℤ := fun l => 1 :: l

/-- Concrete coefficient-hash stand-in (never equal to 1 on small inputs). -/
def hashCK : List ℤ → ℤ → ℤ := fun h s => h.sum + s + 2

/-- Concrete scalar multiplication stand-in. -/
def csmulK : ℤ → ℤ × ℤ → ℤ × ℤ := fun c p => (c * p.1, c * p.2)

/-- Concrete private-to-public key map stand-in. -/
def pubOfK : ℤ × ℤ → ℤ × ℤ := id

/-- Concrete even-y normalization stand-in. -/
def xnormK : ℤ × ℤ → ℤ × ℤ := fun p => (p.1, 0)

theorem AggregateKeys_perm_invariant_witness :
    AggregateKeys serK hashLK hashCK csmulK
        [((3 : ℤ), (0 : ℤ)), ((2 : ℤ), (5 : ℤ))] true none none =
      AggregateKeys serK hashLK hashCK csmulK
        [((2 : ℤ), (5 : ℤ)), ((3 : ℤ), (0 : ℤ))] true none none :=
  AggregateKeys_perm_invariant serK hashLK hashCK csmulK
    [((3 : ℤ), (0 : ℤ)), ((2 : ℤ), (5 : ℤ))]
    [((2 : ℤ), (5 : ℤ)), ((3 : ℤ), (0 : ℤ))] (by decide)
    (List.Perm.swap ((2 : ℤ), (5 : ℤ)) ((3 : ℤ), (0 : ℤ)) [])

theorem aggregationCoefficient_second_unique_spec_witness :
    aggregationCoefficient serK hashCK
        [((3 : ℤ), (0 : ℤ)), ((2 : ℤ), (5 : ℤ))] ((2 : ℤ), (5 : ℤ)) [(9 : ℤ)]
        (secondUniqueKeyIndex serK
          [((3 : ℤ), (0 : ℤ)), ((2 : ℤ), (5 : ℤ))]) = 1 :=
  ((aggregationCoefficient_second_unique_spec serK hashCK (3, 0) [(2, 5)]
    [9]).2.2.1 (2, 5) (by decide)).mpr (by decide)

/-- C8 counterexample: on the empty key list the aggregation routine of the
source returns the identity point — it has no error return — while the
specified behaviour demands an `InvalidKeyData` failure. -/
theorem AggregateKeys_empty_counterexample :
    AggregateKeys serK hashLK hashCK csmulK ([] : List (ℤ × ℤ)) true none
        none = 0 ∧
    aggregateKeysSpecced serK hashLK hashCK csmulK ([] : List (ℤ × ℤ)) true =
      .error .invalidKeyData :=
  ⟨rfl, rfl⟩

theorem AggregateKeys_total_spec_witness :
    AggregateKeys serK hashLK hashCK csmulK
        [((4 : ℤ), (0 : ℤ)), ((4 : ℤ), (9 : ℤ))] true none none =
      [((4 : ℤ), (0 : ℤ)), ((4 : ℤ), (9 : ℤ))].foldl (fun acc key =>
        acc + csmulK (hashCK (hashLK
          ([((4 : ℤ), (0 : ℤ)), ((4 : ℤ), (9 : ℤ))].map serK)) (serK key))
          key) 0 :=
  (AggregateKeys_total_spec serK hashLK hashCK csmulK).2 (4, 0) [(4, 9)]
    (by decide)

theorem sortKeys_in_place_spec_witness :
    (sortKeysSt serK [((2 : ℤ), (5 : ℤ)), ((1 : ℤ), (0 : ℤ))]).2 ≠
      [((2 : ℤ), (5 : ℤ)), ((1 : ℤ), (0 : ℤ))] :=
  (sortKeys_in_place_spec (H := List ℤ) (C := ℤ) serK
    [((2 : ℤ), (5 : ℤ)), ((1 : ℤ), (0 : ℤ))]).2.2.2.1 (by decide)

/-- C6 counterexample: the signing key's public key `(5, 1)` (odd y) is itself
in the signer list and trivially matches by x-only serialization, yet
`NewContext` fails with `SignerNotInKeySet`, because the code compares signer
entries by full point equality against the even-y normalization `(5, 0)`. -/
theorem NewContext_xonly_comparison_counterexample :
    NewContext serK hashLK hashCK csmulK pubOfK xnormK ((5 : ℤ), (1 : ℤ))
        [((5 : ℤ), (1 : ℤ))] true ([] : List Unit) =
      .error .signerNotInKeySet ∧
    ((5 : ℤ), (1 : ℤ)) ∈ [((5 : ℤ), (1 : ℤ))] ∧
    serK ((5 : ℤ), (1 : ℤ)) = serK (pubOfK ((5 : ℤ), (1 : ℤ))) :=
  ⟨rfl, by decide, by decide⟩

theorem NewContext_signer_check_witness :
    ∃ c, NewContext serK hashLK hashCK csmulK pubOfK xnormK
        ((5 : ℤ), (0 : ℤ)) [((5 : ℤ), (0 : ℤ))] true ([] : List Unit) =
      .ok c ∧ c.keySet = [((5 : ℤ), (0 : ℤ))] ∧
      c.pubKey = xnormK (pubOfK ((5 : ℤ), (0 : ℤ))) :=
  (NewContext_signer_check serK hashLK hashCK csmulK pubOfK xnormK
    ((5 : ℤ), (0 : ℤ)) [((5 : ℤ), (0 : ℤ))] true ([] : List Unit)).2
    ⟨((5 : ℤ), (0 : ℤ)), by decide, by decide⟩

end Musig2
